import Mathlib

/-!
Verification development for the flat-json-tree projection/mutation core.

The repository holds two implementation variants of the same design:
* `src/index.ts` — `useFlatJsonTree`: recursive `getLeaves` flatten plus
  `add / down / left / remove / right / up` looked up via `leaves.find`;
* `src/src/index.ts` — stack-based `genNodes` generator plus a `run`
  dispatcher over actions `add / addChild / down / left / remove / right / up`
  looked up via `nodesMap`.

Nodes are JSON records with a unique `id` field and an optional `children`
array.  We model them with numeric ids (the illustrative forests in the spec
use numeric ids); `hasKids` records whether the `children` field is present
on the record (the sources distinguish a missing field from an empty array,
e.g. `the[keyChildren] ?? null` in `add` of `src/index.ts`), and `children`
is the field's array, `[]` when the field is absent (the sources read it as
`node[keyChildren] ?? []`).
-/

namespace FlatJsonTree

inductive Node where
  | mk (id : Nat) (hasKids : Bool) (children : List Node)
deriving Repr

def Node.id : Node → Nat
  | .mk i _ _ => i

def Node.hasKids : Node → Bool
  | .mk _ h _ => h

def Node.children : Node → List Node
  | .mk _ _ c => c

theorem Node.children_sizeOf_lt (n : Node) : sizeOf n.children < sizeOf n := by
  cases n with
  | mk i h c => simp [Node.children]

/-- Model of `getLeaves` in `src/index.ts` (lines 106–126): pre-order flatten,
`siblings.value.flatMap(value => [value, ...getLeaves(children of value)])`.
The per-node accessor bindings it installs are modelled separately by
`locGo` below. -/
def getLeaves : List Node → List Node
  | [] => []
  | n :: rest => n :: (getLeaves n.children ++ getLeaves rest)
termination_by l => sizeOf l
decreasing_by
  all_goals simp_wf
  all_goals (have h := Node.children_sizeOf_lt n; omega)

/-- The id sequence of the flat view. -/
def leafIds (tree : List Node) : List Nat := (getLeaves tree).map Node.id

/-- Number of node positions in a forest, defined independently of the
flatten algorithm. -/
def sizeF : List Node → Nat
  | [] => 0
  | n :: rest => 1 + sizeF n.children + sizeF rest
termination_by l => sizeOf l
decreasing_by
  all_goals simp_wf
  all_goals (have h := Node.children_sizeOf_lt n; omega)

/-- Number of node positions in a forest carrying a given id. -/
def idOccF (pId : Nat) : List Node → Nat
  | [] => 0
  | n :: rest => (if n.id = pId then 1 else 0) + idOccF pId n.children + idOccF pId rest
termination_by l => sizeOf l
decreasing_by
  all_goals simp_wf
  all_goals (have h := Node.children_sizeOf_lt n; omega)

/-- Reachability by descending `children` edges (reflexive). -/
inductive Desc : Node → Node → Prop where
  | refl (n : Node) : Desc n n
  | child {n c x : Node} : c ∈ n.children → Desc c x → Desc n x

/-- A node is reachable from a forest if it is a descendant of some root. -/
def ReachF (tree : List Node) (x : Node) : Prop := ∃ r ∈ tree, Desc r x

/-! ### The stack-based traversal of `src/src/index.ts` (`getItems`/`genNodes`) -/

/-- A stack entry of `genNodes`: `{ node, parent, siblings }`. -/
structure Item where
  node : Node
  parent : Option Node
  siblings : List Node

/-- Model of `getItems` in `src/src/index.ts` (lines 16–17):
`[...siblings].reverse().map(node => ({ node, parent, siblings }))`. -/
def getItems (siblings : List Node) (parent : Option Node) : List Item :=
  siblings.reverse.map fun node => ⟨node, parent, siblings⟩

/-- Total size of the nodes on the stack, for termination of the loop. -/
def stackWeight (s : List Item) : Nat := (s.map fun it => sizeF [it.node]).sum

theorem stackWeight_append (a b : List Item) :
    stackWeight (a ++ b) = stackWeight a + stackWeight b := by
  simp [stackWeight]

theorem stackWeight_cons (it : Item) (s : List Item) :
    stackWeight (it :: s) = sizeF [it.node] + stackWeight s := by
  simp [stackWeight]

theorem sizeF_eq_sum (l : List Node) : sizeF l = (l.map fun c => sizeF [c]).sum := by
  induction l with
  | nil => simp [sizeF]
  | cons n t ih => rw [sizeF, ih]; simp [sizeF]

theorem stackWeight_getItems_reverse (cs : List Node) (p : Option Node) :
    stackWeight (getItems cs p).reverse = (cs.map fun c => sizeF [c]).sum := by
  simp [stackWeight, getItems, List.map_reverse, Function.comp_def]

/-- The `while (stack.length)` loop of `genNodes` in `src/src/index.ts`
(lines 117–147).  The JS array's *end* (where `pop`/`push` operate) is the
*head* of this list, so popping is taking the head and
`stack.push(...getItems(children, node))` prepends the reversed item list. -/
def genNodesGo : List Item → List Node
  | [] => []
  | it :: stack =>
    it.node :: genNodesGo ((getItems it.node.children (some it.node)).reverse ++ stack)
termination_by s => stackWeight s
decreasing_by
  simp_wf
  rw [stackWeight_append, stackWeight_getItems_reverse, stackWeight_cons, ← sizeF_eq_sum]
  have h2 : sizeF [it.node] = 1 + sizeF it.node.children + 0 := by
    rw [sizeF, sizeF]
  omega

/-- Model of `genNodes` in `src/src/index.ts`: the generator run to completion on the
initial stack `getItems(tree)`. -/
def genNodes (tree : List Node) : List Node := genNodesGo (getItems tree none).reverse

/-! ### Locating a node and its accessor bindings

Both variants resolve a target id to the first node of the pre-order flat
view carrying that id (`leaves.value.find(leaf => leaf[keyId] === pId)` in
`src/index.ts`; the `nodesMap` lookup of `src/src/index.ts` agrees with it
whenever ids are unique, the data-model precondition I2).  During the walk
each node is bound to the sibling array it was found in and to its parent
(`Object.defineProperties` in `getLeaves` / `genNodes`).  `locGo` performs
that search, returning the chain of `(node, siblings, position)` frames from
the target (head) up to its root (last): the target's bindings and those of
all its ancestors. -/

structure Frame where
  node : Node
  sibs : List Node
  pos : Nat
deriving Repr

/-- Pre-order search for the first node with id `pId`.  `sibs` is the full
sibling array of the level being scanned, `pending` its yet-unscanned suffix
starting at position `i`, and `anc` the frames of the enclosing ancestors. -/
def locGo (pId : Nat) (anc : List Frame) (sibs : List Node) :
    (pending : List Node) → (i : Nat) → Option (List Frame)
  | [], _ => none
  | n :: rest, i =>
    if n.id = pId then some (⟨n, sibs, i⟩ :: anc)
    else
      match locGo pId (⟨n, sibs, i⟩ :: anc) n.children n.children 0 with
      | some fs => some fs
      | none => locGo pId anc sibs rest (i + 1)
termination_by pending _ => sizeOf pending
decreasing_by
  all_goals simp_wf
  all_goals (have h := Node.children_sizeOf_lt n; omega)

/-- Resolve a target id: the `leaves.value.find(...)` / `nodesMap[pId]`
lookup together with the accessor bindings of the found node. -/
def locate (pId : Nat) (tree : List Node) : Option (List Frame) :=
  locGo pId [] tree tree 0

/-- Rebuild the forest after the sibling array at the bottom of the given
ancestor chain has been replaced by `newSibs` — the value-level effect of
mutating a bound `siblings` array in place. -/
def rebuild : List Frame → List Node → List Node
  | [], newSibs => newSibs
  | fr :: anc, newSibs =>
    rebuild anc (fr.sibs.set fr.pos (Node.mk fr.node.id fr.node.hasKids newSibs))

/-- Consistency of an ancestor-frame chain with the forest it was found
in: each frame's node really sits at `pos` in its sibling array, its
`children` array is the level below, and the chain's topmost level is the
root sequence.  The frames produced by `locGo` satisfy this. -/
def AncOk (tree : List Node) : List Frame → List Node → Prop
  | [], sibs => sibs = tree
  | fr :: anc, sibs =>
    fr.node.children = sibs ∧ fr.sibs[fr.pos]? = some fr.node ∧ AncOk tree anc fr.sibs

/-- The ancestor chain as it appears after the level below it has been
replaced by `cur`: every spine node's `children` and every spine sibling
array are updated accordingly.  The frames that `locate` returns on the
rebuilt forest are `respine anc cur`. -/
def respine : List Frame → List Node → List Frame
  | [], _ => []
  | fr :: anc, cur =>
    ⟨Node.mk fr.node.id fr.node.hasKids cur,
      fr.sibs.set fr.pos (Node.mk fr.node.id fr.node.hasKids cur), fr.pos⟩ ::
      respine anc (fr.sibs.set fr.pos (Node.mk fr.node.id fr.node.hasKids cur))

/-- Model of JS `array.splice(i, 1)` as a pure function. -/
def spliceOut {α : Type} (l : List α) (i : Nat) : List α := l.take i ++ l.drop (i + 1)

/-- Model of JS `array.splice(i, 0, a)` as a pure function. -/
def spliceIn {α : Type} (l : List α) (i : Nat) (a : α) : List α := l.take i ++ a :: l.drop i

/-- The comparison `this[keyId] === sibling[keyId]` used by the `index`
accessor, with `this[keyId] = pId`. -/
def idIs (pId : Nat) (s : Node) : Bool := s.id == pId

/-! ### The mutators

Each operation resolves its target (`locate`), reads the accessors
`index` (`siblings.findIndex(s => this[keyId] === s[keyId])`),
`next` (`siblings[index + 1]`), `prev` (`siblings[index - 1]`, absent when
`index` is `0` — JS `siblings[-1]` is `undefined`) and `parent`/`siblings`
(the traversal bindings, i.e. the located frame chain), and performs one
in-place array edit, modelled by `rebuild` of the edited sibling array.
`up`, `down`, `left` and `right` are the same algorithm in both source
variants; `add`, `addChild` and `remove` differ and live in the namespaces
`IndexTs` (src/index.ts) and `SrcIndexTs` (src/src/index.ts). -/

/-- Model of `up` (src/index.ts lines 148–159; src/src/index.ts `run` case "up",
lines 242–248): swap the target with its previous sibling when `index` is
non-zero. -/
def up (pId : Nat) (tree : List Node) : List Node :=
  match locate pId tree with
  | some (fr :: anc) =>
    let index := fr.sibs.findIdx (idIs pId)
    if index = 0 then tree
    else
      match fr.sibs[index]?, fr.sibs[index - 1]? with
      | some cur, some prev => rebuild anc ((fr.sibs.set (index - 1) cur).set index prev)
      | _, _ => tree
  | _ => tree

/-- Model of `down` (src/index.ts lines 163–174; src/src/index.ts `run` case "down",
lines 205–215): swap the target with its next sibling when
`index < siblings.length - 1`. -/
def down (pId : Nat) (tree : List Node) : List Node :=
  match locate pId tree with
  | some (fr :: anc) =>
    let index := fr.sibs.findIdx (idIs pId)
    if index < fr.sibs.length - 1 then
      match fr.sibs[index]?, fr.sibs[index + 1]? with
      | some cur, some next => rebuild anc ((fr.sibs.set index next).set (index + 1) cur)
      | _, _ => tree
    else tree
  | _ => tree

/-- Model of `right` (src/index.ts lines 178–196; src/src/index.ts `run` case
"right", lines 234–241): when a previous sibling exists, splice the target
out of its siblings and set `prev[children] = [...children, target]`;
returns the previous sibling's id. -/
def right (pId : Nat) (tree : List Node) : Option Nat × List Node :=
  match locate pId tree with
  | some (fr :: anc) =>
    let index := fr.sibs.findIdx (idIs pId)
    let prev? := if index = 0 then none else fr.sibs[index - 1]?
    match prev?, fr.sibs[index]? with
    | some prev, some cur =>
      (some prev.id,
        rebuild anc
          ((spliceOut fr.sibs index).set (index - 1)
            (Node.mk prev.id true (prev.children ++ [cur]))))
    | _, _ => (none, tree)
  | _ => (none, tree)

/-- Model of `left` (src/index.ts lines 200–219; src/src/index.ts `run` case "left",
lines 216–225): when the parent itself has a parent binding, splice the
target out of the parent's children and into the parent's siblings right
after the parent's `index`; returns the parent's id. -/
def left (pId : Nat) (tree : List Node) : Option Nat × List Node :=
  match locate pId tree with
  | some (fr :: par :: gp :: anc) =>
    let index := fr.sibs.findIdx (idIs pId)
    let pindex := par.sibs.findIdx (idIs par.node.id)
    match fr.sibs[index]? with
    | some cur =>
      (some par.node.id,
        rebuild (gp :: anc)
          (spliceIn
            (par.sibs.set par.pos
              (Node.mk par.node.id par.node.hasKids (spliceOut fr.sibs index)))
            (pindex + 1) cur))
    | none => (none, tree)
  | _ => (none, tree)

namespace IndexTs

/-- Model of `add` of src/index.ts (lines 223–246): `switch (true)` on
`!!the[keyParent]` (insert a `{ id }` sibling after `index`), then
`!!children` (the `children` *field* is present: unshift a `{ id }` child),
then the default (sibling insert again).  `fresh` stands for the injected
`v4()` id. -/
def add (pId fresh : Nat) (tree : List Node) : Option Nat × List Node :=
  match locate pId tree with
  | some (fr :: anc) =>
    let index := fr.sibs.findIdx (idIs pId)
    match anc with
    | _ :: _ =>
      (some fresh, rebuild anc (spliceIn fr.sibs (index + 1) (Node.mk fresh false [])))
    | [] =>
      if fr.node.hasKids then
        (some fresh,
          rebuild anc
            (fr.sibs.set fr.pos
              (Node.mk fr.node.id fr.node.hasKids
                (Node.mk fresh false [] :: fr.node.children))))
      else
        (some fresh, rebuild anc (spliceIn fr.sibs (index + 1) (Node.mk fresh false [])))
  | _ => (none, tree)

/-- Model of `remove` of src/index.ts (lines 250–277): only acts when the parent
binding is present; picks `next`'s id, else `prev`'s, else the parent's,
splices the target out, and — when the picked id is falsy (`if (!id)`,
i.e. `0` for numeric ids) — re-reads the *post-splice* flat view and
returns its first node's id. -/
def remove (pId : Nat) (tree : List Node) : Option Nat × List Node :=
  match locate pId tree with
  | some (fr :: par :: anc) =>
    let index := fr.sibs.findIdx (idIs pId)
    let chosen :=
      match fr.sibs[index + 1]? with
      | some nx => nx.id
      | none =>
        match (if index = 0 then none else fr.sibs[index - 1]?) with
        | some pv => pv.id
        | none => par.node.id
    let tree' := rebuild (par :: anc) (spliceOut fr.sibs index)
    if chosen = 0 then ((getLeaves tree').head?.map Node.id, tree')
    else (some chosen, tree')
  | _ => (none, tree)

end IndexTs

namespace SrcIndexTs

/-- Model of the `run` case "add" of src/src/index.ts (lines 194–198): unconditionally
`siblings.splice(nextIndex, 0, { [keyId]: id })`; returns the fresh id. -/
def add (pId fresh : Nat) (tree : List Node) : Option Nat × List Node :=
  match locate pId tree with
  | some (fr :: anc) =>
    let index := fr.sibs.findIdx (idIs pId)
    (some fresh, rebuild anc (spliceIn fr.sibs (index + 1) (Node.mk fresh false [])))
  | _ => (none, tree)

/-- Model of the `run` case "addChild" of src/src/index.ts (lines 199–204): ensure the
`children` field is an array, then unshift `{ [keyId]: id }`. -/
def addChild (pId fresh : Nat) (tree : List Node) : Option Nat × List Node :=
  match locate pId tree with
  | some (fr :: anc) =>
    (some fresh,
      rebuild anc
        (fr.sibs.set fr.pos
          (Node.mk fr.node.id true (Node.mk fresh false [] :: fr.node.children))))
  | _ => (none, tree)

/-- Model of the `run` case "remove" of src/src/index.ts (lines 226–233): no parent
check; `id = next?.id ?? prev?.id ?? parent?.id ?? root?.id` with `root`
the first node of the flat view read *before* the splice; then splice. -/
def remove (pId : Nat) (tree : List Node) : Option Nat × List Node :=
  match locate pId tree with
  | some (fr :: anc) =>
    let root? := (getLeaves tree).head?
    let index := fr.sibs.findIdx (idIs pId)
    let next? := fr.sibs[index + 1]?
    let prev? := if index = 0 then none else fr.sibs[index - 1]?
    let parent? := anc.head?.map Frame.node
    ((next?.map Node.id) <|> (prev?.map Node.id) <|> (parent?.map Node.id) <|>
        (root?.map Node.id),
      rebuild anc (spliceOut fr.sibs index))
  | _ => (none, tree)

end SrcIndexTs

/-! ### Concrete forests used by the spec's illustrative scenarios -/

/-- A leaf record: `{ id }`, no `children` field. -/
def lf (i : Nat) : Node := .mk i false []

/-- A branch record: `{ id, children }`. -/
def br (i : Nat) (cs : List Node) : Node := .mk i true cs

/-- The forest of section 8 of the spec:
`[{id:1,children:[{id:2,children:[{id:5},{id:6}]},{id:3},{id:4,children:[{id:7},{id:8},{id:9}]}]}]`. -/
def exampleForest : List Node :=
  [br 1 [br 2 [lf 5, lf 6], lf 3, br 4 [lf 7, lf 8, lf 9]]]

/-! ### String-keyed records, for the field-alias configuration

Only the claim about alias uniformity needs the string-keyed storage
itself; the rest of the development models the default configuration
(`keyId = "id"`, `keyChildren = "children"`), under which the two variants
read and write the same keys.  A record is a list of (key, value) fields;
values are the ids. -/

namespace Alias

/-- A flat JSON record: string keys mapping to id values. -/
abbrev Rec : Type := List (String × Nat)

/-- Reading `record[key]`: `none` is JS `undefined`. -/
def aget (r : Rec) (k : String) : Option Nat :=
  (List.find? (fun p => p.1 == k) r).map (fun p => p.2)

/-- Model of the `index` accessor of src/index.ts (lines 75–81):
`siblings.findIndex(({ id }) => this[keyId] === id)` — the *literal* key
"id" is read from each sibling (destructuring), while `this` is read at the
configured key.  JS `findIndex` returns `-1` when nothing matches, and
`undefined === undefined` is `true`. -/
def indexAccessorIndexTs (keyId : String) (self : Rec) (sibs : List Rec) : Int :=
  match List.findIdx? (fun s => aget self keyId == aget s "id") sibs with
  | some i => (i : Int)
  | none => -1

/-- Model of the `index` accessor of src/src/index.ts (lines 67–83):
`siblings.findIndex(sibling => this[keyId] === sibling[keyId])` — both sides
read the configured key. -/
def indexAccessorSrcIndexTs (keyId : String) (self : Rec) (sibs : List Rec) : Int :=
  match List.findIdx? (fun s => aget self keyId == aget s keyId) sibs with
  | some i => (i : Int)
  | none => -1

/-- The record created by `add` of src/index.ts (lines 231–241):
`{ id }` — the fresh id is stored under the *literal* key "id". -/
def newNodeIndexTs (fresh : Nat) : Rec := [("id", fresh)]

/-- The record created by the `run` cases "add"/"addChild" of
src/src/index.ts (lines 194–204): `{ [keyId]: id }` — the fresh id is
stored under the configured key. -/
def newNodeSrcIndexTs (keyId : String) (fresh : Nat) : Rec := [(keyId, fresh)]

end Alias

/-- Definition following the spec's words for the delete result: the id of
the target's next sibling if one exists, else of its previous sibling, else
of its parent (claim C3's priority), to be compared with what the two
`remove` implementations return. -/
def specFocusId (sibs : List Node) (i : Nat) (parentId : Nat) : Nat :=
  match sibs[i + 1]? with
  | some nx => nx.id
  | none =>
    match (if i = 0 then none else sibs[i - 1]?) with
    | some pv => pv.id
    | none => parentId

/-! ## Theorems -/

/-! ### Basic equations and induction principle -/

theorem getLeaves_nil : getLeaves [] = [] := by rw [getLeaves]

theorem getLeaves_cons (n : Node) (rest : List Node) :
    getLeaves (n :: rest) = n :: (getLeaves n.children ++ getLeaves rest) := by
  rw [getLeaves]

/-- Induction over the nested forest structure: a property holds of every
forest if it holds of `[]` and is preserved by consing a node whose child
forest satisfies it onto a forest that satisfies it. -/
theorem forest_ind {motive : List Node → Prop} (h0 : motive [])
    (h1 : ∀ (n : Node) (rest : List Node),
      motive n.children → motive rest → motive (n :: rest)) :
    ∀ f, motive f
  | [] => h0
  | n :: rest => h1 n rest (forest_ind h0 h1 n.children) (forest_ind h0 h1 rest)
termination_by f => sizeOf f
decreasing_by
  all_goals simp_wf
  all_goals (have h := Node.children_sizeOf_lt n; omega)

theorem getLeaves_append (a b : List Node) :
    getLeaves (a ++ b) = getLeaves a ++ getLeaves b := by
  induction a with
  | nil => simp [getLeaves_nil]
  | cons n t ih => simp [getLeaves_cons, ih]

/-! ### List helpers -/

theorem list_set_self {α : Type} (l : List α) (i : Nat) (a : α) (h : l[i]? = some a) :
    l.set i a = l := by
  induction l generalizing i with
  | nil => simp at h
  | cons x t ih =>
    cases i with
    | zero => simp at h; simp [h]
    | succ j => simp at h ⊢; exact ih j h

theorem set_eq_take_cons_drop {α : Type} (l : List α) (i : Nat) (a : α)
    (h : i < l.length) :
    l.set i a = l.take i ++ a :: l.drop (i + 1) := by
  induction l generalizing i with
  | nil => simp at h
  | cons x t ih =>
    cases i with
    | zero => simp
    | succ j => simp [ih j (by simpa using h)]

theorem getElem?_of_drop_eq_cons {α : Type} (l : List α) (i : Nat) (n : α)
    (rest : List α) (h : l.drop i = n :: rest) : l[i]? = some n := by
  have h0 := List.getElem?_drop l i 0
  rw [h] at h0
  simpa using h0.symm

theorem drop_succ_of_drop_eq_cons {α : Type} (l : List α) (i : Nat) (n : α)
    (rest : List α) (h : l.drop i = n :: rest) : l.drop (i + 1) = rest := by
  have := List.tail_drop l i
  rw [h] at this
  simpa using this.symm

theorem findIdx_eq_of_firstHit {α : Type} (p : α → Bool) (l : List α) :
    ∀ (i : Nat) (x : α), l[i]? = some x → p x = true →
      (∀ m, m < i → ∀ y, l[m]? = some y → p y = false) → l.findIdx p = i := by
  induction l with
  | nil => intro i x hx; simp at hx
  | cons a t ih =>
    intro i x hx hp hpre
    cases i with
    | zero =>
      simp at hx
      subst hx
      simp [List.findIdx_cons, hp]
    | succ j =>
      have ha : p a = false := hpre 0 (Nat.succ_pos j) a (by simp)
      simp at hx
      rw [List.findIdx_cons, ha]
      simp
      exact ih j x hx hp fun m hm y hy => hpre (m + 1) (by omega) y (by simpa using hy)

/-! ### Properties of `locGo`/`locate` -/

theorem locGo_none_iff (pId : Nat) :
    ∀ (pending : List Node) (anc : List Frame) (sibs : List Node) (i : Nat),
      locGo pId anc sibs pending i = none ↔ pId ∉ leafIds pending := by
  have main : ∀ (w : Nat) (pending : List Node), sizeOf pending = w →
      ∀ (anc : List Frame) (sibs : List Node) (i : Nat),
        locGo pId anc sibs pending i = none ↔ pId ∉ leafIds pending := by
    intro w
    induction w using Nat.strong_induction_on with
    | _ w ih =>
      intro pending hw anc sibs i
      match pending with
      | [] => simp [locGo, leafIds, getLeaves_nil]
      | n :: rest =>
        have hc : sizeOf n.children < w := by
          have := Node.children_sizeOf_lt n; simp at hw; omega
        have hr : sizeOf rest < w := by simp at hw; omega
        rw [locGo]
        by_cases h : n.id = pId
        · simp [h, leafIds, getLeaves_cons]
        · cases hin : locGo pId (⟨n, sibs, i⟩ :: anc) n.children n.children 0 with
          | some fs =>
            have hmem : pId ∈ leafIds n.children := by
              by_contra hno
              have hnone := (ih _ hc n.children rfl (⟨n, sibs, i⟩ :: anc) n.children 0).mpr hno
              rw [hnone] at hin
              exact Option.noConfusion hin
            rcases List.mem_map.mp hmem with ⟨x, hx, hxe⟩
            simp [h, hin, leafIds, getLeaves_cons]
            intro _ hall
            exact absurd hxe (by simpa using hall x hx)
          | none =>
            have hkids := (ih _ hc n.children rfl (⟨n, sibs, i⟩ :: anc) n.children 0).mp hin
            have hrest := ih _ hr rest rfl anc sibs (i + 1)
            simp [h, hin, hrest, leafIds, getLeaves_cons]
            constructor
            · intro h3
              refine ⟨fun he => h he.symm, ?_, h3⟩
              intro x hx hxe
              exact hkids (List.mem_map.mpr ⟨x, hx, hxe⟩)
            · rintro ⟨-, -, h3⟩
              exact h3
  exact fun pending => main (sizeOf pending) pending rfl

theorem locate_none_iff (pId : Nat) (tree : List Node) :
    locate pId tree = none ↔ pId ∉ leafIds tree :=
  locGo_none_iff pId tree [] tree 0

theorem lt_length_of_getElem? {α : Type} {l : List α} {i : Nat} {a : α}
    (h : l[i]? = some a) : i < l.length := by
  by_contra hle
  rw [List.getElem?_eq_none (by omega)] at h
  exact Option.noConfusion h

/-- Soundness of the search: a successful `locGo` returns a nonempty frame
chain whose head is a genuine binding of the first node with the searched
id (the node sits at `pos` in its sibling array, no earlier sibling has the
id) over a consistent ancestor chain. -/
theorem locGo_ok (pId : Nat) (tree : List Node) :
    ∀ (pending : List Node) (anc : List Frame) (sibs : List Node) (i : Nat),
      pending = sibs.drop i →
      AncOk tree anc sibs →
      (∀ m, m < i → ∀ x, sibs[m]? = some x → x.id ≠ pId) →
      ∀ fs, locGo pId anc sibs pending i = some fs →
        ∃ fr anc', fs = fr :: anc' ∧ fr.node.id = pId ∧
          fr.sibs[fr.pos]? = some fr.node ∧
          (∀ m, m < fr.pos → ∀ x, fr.sibs[m]? = some x → x.id ≠ pId) ∧
          AncOk tree anc' fr.sibs := by
  have main : ∀ (w : Nat) (pending : List Node), sizeOf pending = w →
      ∀ (anc : List Frame) (sibs : List Node) (i : Nat),
        pending = sibs.drop i →
        AncOk tree anc sibs →
        (∀ m, m < i → ∀ x, sibs[m]? = some x → x.id ≠ pId) →
        ∀ fs, locGo pId anc sibs pending i = some fs →
          ∃ fr anc', fs = fr :: anc' ∧ fr.node.id = pId ∧
            fr.sibs[fr.pos]? = some fr.node ∧
            (∀ m, m < fr.pos → ∀ x, fr.sibs[m]? = some x → x.id ≠ pId) ∧
            AncOk tree anc' fr.sibs := by
    intro w
    induction w using Nat.strong_induction_on with
    | _ w ih =>
      intro pending hw anc sibs i hpend hanc hpre fs hres
      match pending, hw with
      | [], hw => rw [locGo] at hres; exact Option.noConfusion hres
      | n :: rest, hw =>
        have hc : sizeOf n.children < w := by
          have := Node.children_sizeOf_lt n; simp at hw; omega
        have hr : sizeOf rest < w := by simp at hw; omega
        have hni : sibs[i]? = some n := getElem?_of_drop_eq_cons sibs i n rest hpend.symm
        rw [locGo] at hres
        by_cases h : n.id = pId
        · simp only [h, if_true, if_pos] at hres
          rw [Option.some_inj] at hres
          subst hres
          exact ⟨⟨n, sibs, i⟩, anc, rfl, h, hni, hpre, hanc⟩
        · simp only [h, if_false, if_neg, not_false_iff] at hres
          cases hin : locGo pId (⟨n, sibs, i⟩ :: anc) n.children n.children 0 with
          | some fs' =>
            rw [hin, Option.some_inj] at hres
            subst hres
            exact ih _ hc n.children rfl (⟨n, sibs, i⟩ :: anc) n.children 0 (by simp)
              ⟨rfl, hni, hanc⟩ (by omega) fs' hin
          | none =>
            rw [hin] at hres
            refine ih _ hr rest rfl anc sibs (i + 1)
              (drop_succ_of_drop_eq_cons sibs i n rest hpend.symm).symm hanc ?_ fs hres
            intro m hm x hx
            rcases Nat.lt_or_ge m i with hmi | hmi
            · exact hpre m hmi x hx
            · have : m = i := by omega
              subst this
              rw [hni, Option.some_inj] at hx
              subst hx
              exact h
  exact fun pending => main (sizeOf pending) pending rfl

/-- Soundness of `locate`, specialised from `locGo_ok`. -/
theorem locate_ok (pId : Nat) (tree : List Node) (fs : List Frame)
    (h : locate pId tree = some fs) :
    ∃ fr anc', fs = fr :: anc' ∧ fr.node.id = pId ∧
      fr.sibs[fr.pos]? = some fr.node ∧
      (∀ m, m < fr.pos → ∀ x, fr.sibs[m]? = some x → x.id ≠ pId) ∧
      AncOk tree anc' fr.sibs :=
  locGo_ok pId tree tree [] tree 0 (by simp) (by simp [AncOk]) (by omega) fs h

/-- Rebuilding an unmodified sibling array reconstructs the original
forest. -/
theorem rebuild_self (tree : List Node) :
    ∀ (anc : List Frame) (sibs : List Node), AncOk tree anc sibs →
      rebuild anc sibs = tree := by
  intro anc
  induction anc with
  | nil => intro sibs h; simpa [rebuild] using h
  | cons fr anc ih =>
    intro sibs h
    obtain ⟨hch, hpos, hanc⟩ := h
    have heta : Node.mk fr.node.id fr.node.hasKids sibs = fr.node := by
      rw [← hch]
      cases fr.node
      simp [Node.id, Node.hasKids, Node.children]
    rw [rebuild, heta, list_set_self _ _ _ hpos]
    exact ih _ hanc

/-- At the located target, the `index` accessor
(`findIndex(s => this[keyId] === s[keyId])`) returns exactly the target's
physical position in its sibling array. -/
theorem locate_findIdx (pId : Nat) (tree : List Node) (fr : Frame) (anc : List Frame)
    (h : locate pId tree = some (fr :: anc)) :
    fr.sibs.findIdx (idIs pId) = fr.pos := by
  obtain ⟨fr', anc', heq, hid, hpos, hpre, -⟩ := locate_ok pId tree _ h
  obtain ⟨h1, h2⟩ := List.cons.inj heq
  subst h1
  exact findIdx_eq_of_firstHit (idIs pId) fr.sibs fr.pos fr.node hpos
    (beq_iff_eq.mpr hid)
    (fun m hm y hy => beq_eq_false_iff_ne.mpr (hpre m hm y hy))

/-! ### Claim C2 -/

/-- C2: for the forest
`[{id:1,children:[{id:2,children:[{id:5},{id:6}]},{id:3},{id:4,children:[{id:7},{id:8},{id:9}]}]}]`
the flat view's id order is exactly `[1,2,5,6,3,4,7,8,9]` — for the
`getLeaves` flatten of src/index.ts and the stack-based `genNodes` flatten
of src/src/index.ts alike. -/
theorem c2_preorder_example :
    leafIds exampleForest = [1, 2, 5, 6, 3, 4, 7, 8, 9] ∧
    (genNodes exampleForest).map Node.id = [1, 2, 5, 6, 3, 4, 7, 8, 9] := by
  constructor <;>
    simp [leafIds, exampleForest, br, lf, getLeaves, genNodes, genNodesGo,
      getItems, Node.children, Node.id]

/-! ### Flat-view decomposition under `rebuild` -/

theorem AncOk_posOk (tree : List Node) :
    ∀ (anc : List Frame) (sibs : List Node), AncOk tree anc sibs →
      ∀ fr ∈ anc, fr.pos < fr.sibs.length := by
  intro anc
  induction anc with
  | nil => intro sibs _ fr hfr; simp at hfr
  | cons g anc ih =>
    intro sibs h fr hfr
    obtain ⟨-, hpos, hanc⟩ := h
    rcases List.mem_cons.mp hfr with rfl | hfr
    · exact lt_length_of_getElem? hpos
    · exact ih _ hanc fr hfr

/-- Replacing the sibling array at the bottom of an ancestor chain changes
a contiguous middle segment of the flat id sequence and nothing else: there
are fixed surrounding segments `A` and `B` such that the flat ids of
`rebuild anc X` are `A ++ leafIds X ++ B` for every `X`. -/
theorem leafIds_rebuild (anc : List Frame)
    (hpos : ∀ fr ∈ anc, fr.pos < fr.sibs.length) :
    ∃ A B : List Nat, ∀ X : List Node, leafIds (rebuild anc X) = A ++ leafIds X ++ B := by
  induction anc with
  | nil => exact ⟨[], [], fun X => by simp [rebuild, leafIds]⟩
  | cons fr anc ih =>
    obtain ⟨A, B, hAB⟩ := ih fun g hg => hpos g (by simp [hg])
    refine ⟨A ++ leafIds (fr.sibs.take fr.pos) ++ [fr.node.id],
      leafIds (fr.sibs.drop (fr.pos + 1)) ++ B, fun X => ?_⟩
    rw [rebuild, hAB,
      set_eq_take_cons_drop fr.sibs fr.pos (Node.mk fr.node.id fr.node.hasKids X)
        (hpos fr (by simp))]
    simp [leafIds, getLeaves_append, getLeaves_cons, Node.id, Node.children]

/-! ### Claim C10 -/

/-- C10: removing a sole root via the `run` "remove" of src/src/index.ts
returns the id read from the pre-splice flat view's first node — the
deleted node's own id — while the remaining forest is empty. -/
theorem c10_sole_root_remove (n : Node) :
    SrcIndexTs.remove n.id [n] = (some n.id, []) := by
  have hloc : locate n.id [n] = some [⟨n, [n], 0⟩] := by
    rw [locate, locGo]
    simp
  rw [SrcIndexTs.remove, hloc]
  simp [getLeaves_cons, idIs, List.findIdx_cons, spliceOut, rebuild]

/-! ### Claim C7 -/

/-- C7: boundary cases and unknown targets are uniform no-ops.  An id
absent from the flat view leaves every operation of both variants inert
with an absent result; `up` on a first sibling, `down` on a last sibling,
`right` on a first sibling and `left` on a root's direct child likewise
leave the forest unchanged.  (The operations are total functions — the
model has no failure/exception outcome.) -/
theorem c7_boundary_and_missing_noops :
    (∀ (tree : List Node) (pId fresh : Nat), pId ∉ leafIds tree →
      up pId tree = tree ∧ down pId tree = tree ∧
      left pId tree = (none, tree) ∧ right pId tree = (none, tree) ∧
      IndexTs.add pId fresh tree = (none, tree) ∧
      IndexTs.remove pId tree = (none, tree) ∧
      SrcIndexTs.add pId fresh tree = (none, tree) ∧
      SrcIndexTs.addChild pId fresh tree = (none, tree) ∧
      SrcIndexTs.remove pId tree = (none, tree)) ∧
    (∀ (tree : List Node) (pId : Nat) (fr : Frame) (anc : List Frame),
      locate pId tree = some (fr :: anc) → fr.pos = 0 →
      up pId tree = tree ∧ right pId tree = (none, tree)) ∧
    (∀ (tree : List Node) (pId : Nat) (fr : Frame) (anc : List Frame),
      locate pId tree = some (fr :: anc) → fr.pos = fr.sibs.length - 1 →
      down pId tree = tree) ∧
    (∀ (tree : List Node) (pId : Nat) (fr par : Frame),
      locate pId tree = some [fr, par] →
      left pId tree = (none, tree)) := by
  refine ⟨?_, ?_, ?_, ?_⟩
  · intro tree pId fresh hmiss
    have hnone : locate pId tree = none := (locate_none_iff pId tree).mpr hmiss
    exact ⟨by rw [up, hnone], by rw [down, hnone], by rw [left, hnone],
      by rw [right, hnone], by rw [IndexTs.add, hnone], by rw [IndexTs.remove, hnone],
      by rw [SrcIndexTs.add, hnone], by rw [SrcIndexTs.addChild, hnone],
      by rw [SrcIndexTs.remove, hnone]⟩
  · intro tree pId fr anc hloc hpos0
    have hidx := locate_findIdx pId tree fr anc hloc
    constructor
    · rw [up, hloc]
      simp [hidx, hpos0]
    · rw [right, hloc]
      simp [hidx, hpos0]
  · intro tree pId fr anc hloc hlast
    have hidx := locate_findIdx pId tree fr anc hloc
    obtain ⟨fr', anc', heq, -, hpos, -, -⟩ := locate_ok pId tree _ hloc
    obtain ⟨h1, -⟩ := List.cons.inj heq
    subst h1
    have hlen : fr.pos < fr.sibs.length := lt_length_of_getElem? hpos
    rw [down, hloc]
    simp only [hidx, hlast]
    rw [if_neg (by omega)]
  · intro tree pId fr par hloc
    rw [left, hloc]

/-- Witness for C7, on the forest `[{id:1,children:[{id:2},{id:3}]}]`:
an unknown id (42) is a no-op, `up`/`right` on the first sibling (2) are
no-ops, `down` on the last sibling (3) is a no-op, and `left` on the
root's direct child (2) is a no-op. -/
theorem c7_witness :
    up 42 [br 1 [lf 2, lf 3]] = [br 1 [lf 2, lf 3]] ∧
    SrcIndexTs.remove 42 [br 1 [lf 2, lf 3]] = (none, [br 1 [lf 2, lf 3]]) ∧
    up 2 [br 1 [lf 2, lf 3]] = [br 1 [lf 2, lf 3]] ∧
    right 2 [br 1 [lf 2, lf 3]] = (none, [br 1 [lf 2, lf 3]]) ∧
    down 3 [br 1 [lf 2, lf 3]] = [br 1 [lf 2, lf 3]] ∧
    left 2 [br 1 [lf 2, lf 3]] = (none, [br 1 [lf 2, lf 3]]) := by
  have h42 : (42 : Nat) ∉ leafIds [br 1 [lf 2, lf 3]] := by
    simp [leafIds, getLeaves, br, lf, Node.children, Node.id]
  have hloc2 : locate 2 [br 1 [lf 2, lf 3]] =
      some [⟨lf 2, [lf 2, lf 3], 0⟩, ⟨br 1 [lf 2, lf 3], [br 1 [lf 2, lf 3]], 0⟩] := by
    simp [locate, locGo, br, lf, Node.id, Node.children]
  have hloc3 : locate 3 [br 1 [lf 2, lf 3]] =
      some [⟨lf 3, [lf 2, lf 3], 1⟩, ⟨br 1 [lf 2, lf 3], [br 1 [lf 2, lf 3]], 0⟩] := by
    simp [locate, locGo, br, lf, Node.id, Node.children]
  refine ⟨(c7_boundary_and_missing_noops.1 _ _ 0 h42).1,
    (c7_boundary_and_missing_noops.1 _ _ 0 h42).2.2.2.2.2.2.2.2,
    (c7_boundary_and_missing_noops.2.1 _ _ _ _ hloc2 rfl).1,
    (c7_boundary_and_missing_noops.2.1 _ _ _ _ hloc2 rfl).2,
    c7_boundary_and_missing_noops.2.2.1 _ _ _ _ hloc3 rfl,
    c7_boundary_and_missing_noops.2.2.2 _ _ _ _ hloc2⟩

/-! ### Claim C4 -/

/-- Counterexample to C4 as stated: `run("remove")` of src/src/index.ts
does *not* reject a root target.  On the forest `[{id:1},{id:2}]`,
removing root 1 returns id 2 and removes the root, instead of returning an
absent result and leaving the forest unchanged. -/
theorem c4_counterexample :
    SrcIndexTs.remove 1 [lf 1, lf 2] = (some 2, [lf 2]) ∧
    (some 2 : Option Nat) ≠ none ∧ ([lf 2] : List Node) ≠ [lf 1, lf 2] := by
  refine ⟨?_, by simp, by simp⟩
  have hloc : locate 1 [lf 1, lf 2] = some [⟨lf 1, [lf 1, lf 2], 0⟩] := by
    simp [locate, locGo, lf, Node.id]
  rw [SrcIndexTs.remove, hloc]
  simp [getLeaves_cons, idIs, List.findIdx_cons, lf, Node.id, spliceOut, rebuild]

/-- C4 amended: `remove` of src/index.ts rejects a root target (absent
result, forest unchanged), while `run("remove")` of src/src/index.ts
performs the deletion, splicing the target out of the root sequence and
returning the `next ?? prev ?? (pre-splice first root)` id. -/
theorem c4_root_remove_amended :
    (∀ (tree : List Node) (pId : Nat) (fr : Frame),
      locate pId tree = some [fr] →
      IndexTs.remove pId tree = (none, tree)) ∧
    (∀ (tree : List Node) (pId : Nat) (fr : Frame),
      locate pId tree = some [fr] →
      fr.sibs = tree ∧
      SrcIndexTs.remove pId tree =
        ((tree[fr.pos + 1]?).map Node.id <|>
          (if fr.pos = 0 then none else tree[fr.pos - 1]?).map Node.id <|>
          (getLeaves tree).head?.map Node.id,
         spliceOut tree fr.pos)) := by
  constructor
  · intro tree pId fr hloc
    rw [IndexTs.remove, hloc]
  · intro tree pId fr hloc
    obtain ⟨fr', anc', heq, -, -, -, hanc⟩ := locate_ok pId tree _ hloc
    obtain ⟨h1, h2⟩ := List.cons.inj heq
    subst h1
    have hsib : fr.sibs = tree := by
      rw [← h2] at hanc
      simpa [AncOk] using hanc
    have hidx := locate_findIdx pId tree fr [] hloc
    have hidx2 : List.findIdx (idIs pId) tree = fr.pos := by rw [← hsib]; exact hidx
    refine ⟨hsib, ?_⟩
    rw [SrcIndexTs.remove, hloc]
    simp [hsib, hidx2, rebuild]

/-- Witness for C4 on `[{id:1},{id:2}]`: src/index.ts rejects removing
root 1; src/src/index.ts removes it and returns 2. -/
theorem c4_witness :
    IndexTs.remove 1 [lf 1, lf 2] = (none, [lf 1, lf 2]) ∧
    SrcIndexTs.remove 1 [lf 1, lf 2] =
      (some 2, spliceOut [lf 1, lf 2] 0) := by
  have hloc : locate 1 [lf 1, lf 2] = some [⟨lf 1, [lf 1, lf 2], 0⟩] := by
    simp [locate, locGo, lf, Node.id]
  constructor
  · exact c4_root_remove_amended.1 _ _ _ hloc
  · have h := (c4_root_remove_amended.2 _ _ _ hloc).2
    rw [h]
    simp [getLeaves_cons, lf, Node.id]

/-! ### Claim C5 -/

/-- Counterexample to C5 as stated: `add` of src/index.ts on a root-level
target that carries a `children` field does *not* insert into the root
sequence; it prepends the new node to the target's children (`case
!!children: children.unshift({ id })` is reached because a root target has
no `parent`).  On `[{id:1,children:[{id:2}]}]` with fresh id 9, the result
flattens to `[1,9,2]`, not to the `[1,2,9]` of a root-sequence insertion
after the target's index. -/
theorem c5_counterexample :
    IndexTs.add 1 9 [br 1 [lf 2]] = (some 9, [br 1 [Node.mk 9 false [], lf 2]]) ∧
    leafIds [br 1 [Node.mk 9 false [], lf 2]] = [1, 9, 2] ∧
    leafIds (spliceIn [br 1 [lf 2]] (0 + 1) (Node.mk 9 false [])) = [1, 2, 9] ∧
    ([1, 9, 2] : List Nat) ≠ [1, 2, 9] := by
  have hloc : locate 1 [br 1 [lf 2]] = some [⟨br 1 [lf 2], [br 1 [lf 2]], 0⟩] := by
    simp [locate, locGo, br, lf, Node.id]
  refine ⟨?_, ?_, ?_, by simp⟩
  · rw [IndexTs.add, hloc]
    simp [br, lf, Node.hasKids, Node.id, Node.children, rebuild]
  · simp [leafIds, getLeaves, br, lf, Node.id, Node.children]
  · simp [leafIds, getLeaves, spliceIn, br, lf, Node.id, Node.children]

/-- C5 amended: on a root-level target, `run("add")` of src/src/index.ts
always inserts the fresh empty node into the root sequence immediately
after the target's index and returns the fresh id; `add` of src/index.ts
does the same only when the target has no `children` field — when the
field is present, it prepends the fresh node to the target's children
instead. -/
theorem c5_add_root_amended :
    (∀ (tree : List Node) (pId fresh : Nat) (fr : Frame),
      locate pId tree = some [fr] →
      fr.sibs = tree ∧
      SrcIndexTs.add pId fresh tree =
        (some fresh, spliceIn tree (fr.pos + 1) (Node.mk fresh false []))) ∧
    (∀ (tree : List Node) (pId fresh : Nat) (fr : Frame),
      locate pId tree = some [fr] → fr.node.hasKids = false →
      IndexTs.add pId fresh tree =
        (some fresh, spliceIn tree (fr.pos + 1) (Node.mk fresh false []))) ∧
    (∀ (tree : List Node) (pId fresh : Nat) (fr : Frame),
      locate pId tree = some [fr] → fr.node.hasKids = true →
      IndexTs.add pId fresh tree =
        (some fresh, tree.set fr.pos
          (Node.mk fr.node.id true (Node.mk fresh false [] :: fr.node.children)))) := by
  have sib_eq : ∀ (tree : List Node) (pId : Nat) (fr : Frame),
      locate pId tree = some [fr] →
      fr.sibs = tree ∧ List.findIdx (idIs pId) tree = fr.pos := by
    intro tree pId fr hloc
    obtain ⟨fr', anc', heq, -, -, -, hanc⟩ := locate_ok pId tree _ hloc
    obtain ⟨h1, h2⟩ := List.cons.inj heq
    subst h1
    have hsib : fr.sibs = tree := by
      rw [← h2] at hanc
      simpa [AncOk] using hanc
    have hidx := locate_findIdx pId tree fr [] hloc
    exact ⟨hsib, by rw [← hsib]; exact hidx⟩
  refine ⟨?_, ?_, ?_⟩
  · intro tree pId fresh fr hloc
    obtain ⟨hsib, hidx⟩ := sib_eq tree pId fr hloc
    refine ⟨hsib, ?_⟩
    rw [SrcIndexTs.add, hloc]
    simp [hsib, hidx, rebuild]
  · intro tree pId fresh fr hloc hkids
    obtain ⟨hsib, hidx⟩ := sib_eq tree pId fr hloc
    rw [IndexTs.add, hloc]
    simp [hsib, hidx, hkids, rebuild]
  · intro tree pId fresh fr hloc hkids
    obtain ⟨hsib, hidx⟩ := sib_eq tree pId fr hloc
    rw [IndexTs.add, hloc]
    simp [hsib, hidx, hkids, rebuild]

/-- Witness for C5 on `[{id:1},{id:3}]` (root target 1, no `children`
field, fresh id 9): both variants insert the new node into the root
sequence right after the target. -/
theorem c5_witness :
    SrcIndexTs.add 1 9 [lf 1, lf 3] =
      (some 9, spliceIn [lf 1, lf 3] (0 + 1) (Node.mk 9 false [])) ∧
    IndexTs.add 1 9 [lf 1, lf 3] =
      (some 9, spliceIn [lf 1, lf 3] (0 + 1) (Node.mk 9 false [])) := by
  have hloc : locate 1 [lf 1, lf 3] = some [⟨lf 1, [lf 1, lf 3], 0⟩] := by
    simp [locate, locGo, lf, Node.id]
  exact ⟨(c5_add_root_amended.1 _ _ 9 _ hloc).2,
    c5_add_root_amended.2.1 _ _ 9 _ hloc rfl⟩

/-! ### Claim C3 -/

theorem chain_eq_specFocusId (sibs : List Node) (i : Nat) (parId : Nat) :
    ((sibs[i + 1]?).map Node.id <|>
      ((if i = 0 then none else sibs[i - 1]?).map Node.id) <|> some parId) =
    some (specFocusId sibs i parId) := by
  cases hnx : sibs[i + 1]? <;>
    cases hpv : (if i = 0 then none else sibs[i - 1]?) <;>
      simp [specFocusId, hnx, hpv]

/-- C3 (amended): for a target with a parent, `run("remove")` of
src/src/index.ts returns the priority id — next sibling, else previous
sibling, else parent — and splices the target (with its subtree) out of its
sibling array, the flat view losing exactly the target's subtree segment.
`remove` of src/index.ts does the same when the priority id is nonzero; a
falsy chosen id (`if (!id)`, i.e. id 0) makes it return the first node of
the post-deletion flat view instead. -/
theorem c3_remove_focus (tree : List Node) (pId : Nat) (fr par : Frame) (anc : List Frame)
    (hloc : locate pId tree = some (fr :: par :: anc)) :
    SrcIndexTs.remove pId tree =
      (some (specFocusId fr.sibs fr.pos par.node.id),
        rebuild (par :: anc) (spliceOut fr.sibs fr.pos)) ∧
    IndexTs.remove pId tree =
      ((if specFocusId fr.sibs fr.pos par.node.id = 0
          then (getLeaves (rebuild (par :: anc) (spliceOut fr.sibs fr.pos))).head?.map Node.id
          else some (specFocusId fr.sibs fr.pos par.node.id)),
        rebuild (par :: anc) (spliceOut fr.sibs fr.pos)) ∧
    ∃ A B : List Nat, leafIds tree = A ++ leafIds [fr.node] ++ B ∧
      leafIds (rebuild (par :: anc) (spliceOut fr.sibs fr.pos)) = A ++ B := by
  have hidx := locate_findIdx pId tree fr (par :: anc) hloc
  obtain ⟨fr', anc', heq, hid, hpos, hpre, hanc⟩ := locate_ok pId tree _ hloc
  obtain ⟨h1, h2⟩ := List.cons.inj heq
  subst h1
  rw [← h2] at hanc
  refine ⟨?_, ?_, ?_⟩
  · rw [SrcIndexTs.remove, hloc]
    simp [hidx, chain_eq_specFocusId]
  · rw [IndexTs.remove, hloc]
    cases hnx : fr.sibs[fr.pos + 1]? with
    | some nx =>
      simp [hidx, hnx, specFocusId]
      by_cases hz : nx.id = 0 <;> simp [hz]
    | none =>
      cases hpv : (if fr.pos = 0 then none else fr.sibs[fr.pos - 1]?) with
      | some pv =>
        simp [hidx, hnx, hpv, specFocusId]
        by_cases hz : pv.id = 0 <;> simp [hz]
      | none =>
        simp [hidx, hnx, hpv, specFocusId]
        by_cases hz : par.node.id = 0 <;> simp [hz]
  · have hposok := AncOk_posOk tree (par :: anc) fr.sibs hanc
    obtain ⟨A, B, hAB⟩ := leafIds_rebuild (par :: anc) hposok
    have hplen : fr.pos < fr.sibs.length := lt_length_of_getElem? hpos
    have hsplit : fr.sibs = fr.sibs.take fr.pos ++ fr.node :: fr.sibs.drop (fr.pos + 1) := by
      conv_lhs => rw [← list_set_self fr.sibs fr.pos fr.node hpos]
      exact set_eq_take_cons_drop _ _ _ hplen
    have htree : leafIds tree = A ++ leafIds fr.sibs ++ B := by
      rw [← rebuild_self tree (par :: anc) fr.sibs hanc]
      exact hAB fr.sibs
    refine ⟨A ++ leafIds (fr.sibs.take fr.pos),
      leafIds (fr.sibs.drop (fr.pos + 1)) ++ B, ?_, ?_⟩
    · rw [htree]
      conv_lhs => rw [hsplit]
      simp [leafIds, getLeaves_append, getLeaves_cons, getLeaves_nil]
    · rw [hAB (spliceOut fr.sibs fr.pos)]
      simp [spliceOut, leafIds, getLeaves_append]

/-- Counterexample to C3 as stated: on `[{id:1,children:[{id:0},{id:2}]}]`,
removing id 2 (previous sibling id 0, no next sibling) must return the
previous sibling's id 0 by the claimed priority; `remove` of src/index.ts
returns 1 instead, because `if (!id)` treats the chosen id 0 as falsy and
falls back to the first node of the post-deletion flat view. -/
theorem c3_counterexample :
    IndexTs.remove 2 [br 1 [lf 0, lf 2]] = (some 1, [br 1 [lf 0]]) ∧
    (some 1 : Option Nat) ≠ some 0 ∧
    SrcIndexTs.remove 2 [br 1 [lf 0, lf 2]] = (some 0, [br 1 [lf 0]]) := by
  have hloc : locate 2 [br 1 [lf 0, lf 2]] =
      some [⟨lf 2, [lf 0, lf 2], 1⟩,
        ⟨br 1 [lf 0, lf 2], [br 1 [lf 0, lf 2]], 0⟩] := by
    simp [locate, locGo, br, lf, Node.id, Node.children]
  refine ⟨?_, by simp, ?_⟩
  · rw [IndexTs.remove, hloc]
    simp [idIs, List.findIdx_cons, lf, br, Node.id, spliceOut, rebuild,
      getLeaves, Node.children, Node.hasKids]
  · rw [SrcIndexTs.remove, hloc]
    simp [idIs, List.findIdx_cons, lf, br, Node.id, spliceOut, rebuild,
      getLeaves, Node.children, Node.hasKids]

/-- Witness for C3 on `[{id:1,children:[{id:2},{id:3}]}]`: removing 2
(next sibling 3) returns 3 in both variants and removes the node. -/
theorem c3_witness :
    SrcIndexTs.remove 2 [br 1 [lf 2, lf 3]] = (some 3, [br 1 [lf 3]]) ∧
    IndexTs.remove 2 [br 1 [lf 2, lf 3]] = (some 3, [br 1 [lf 3]]) := by
  have hloc : locate 2 [br 1 [lf 2, lf 3]] =
      some [⟨lf 2, [lf 2, lf 3], 0⟩,
        ⟨br 1 [lf 2, lf 3], [br 1 [lf 2, lf 3]], 0⟩] := by
    simp [locate, locGo, br, lf, Node.id, Node.children]
  obtain ⟨h1, h2, -⟩ := c3_remove_focus [br 1 [lf 2, lf 3]] 2
    ⟨lf 2, [lf 2, lf 3], 0⟩ ⟨br 1 [lf 2, lf 3], [br 1 [lf 2, lf 3]], 0⟩ [] hloc
  constructor
  · rw [h1]
    simp [specFocusId, rebuild, spliceOut, br, lf, Node.id, Node.hasKids]
  · rw [h2]
    simp [specFocusId, rebuild, spliceOut, br, lf, Node.id, Node.hasKids]

/-! ### Claim C6 -/

/-- C6: under the alias configuration `keyId = "ID"`, on the sibling array
`[{ID:1},{ID:2}]`, the `index` accessor of src/index.ts compares
`this["ID"]` against each sibling's *literal* `id` field (absent) and so
returns `-1` for the node `{ID:2}`, while the accessor of
src/src/index.ts, which reads the configured key on both sides, returns
its true position `1`.  Likewise `add` of src/index.ts stores the fresh id
under the literal key "id" rather than the configured key, whereas
src/src/index.ts stores it under the configured key. -/
theorem c6_alias_index_bug :
    Alias.indexAccessorIndexTs "ID" [("ID", 2)] [[("ID", 1)], [("ID", 2)]] = -1 ∧
    Alias.indexAccessorSrcIndexTs "ID" [("ID", 2)] [[("ID", 1)], [("ID", 2)]] = 1 ∧
    Alias.aget (Alias.newNodeIndexTs 9) "ID" = none ∧
    Alias.aget (Alias.newNodeIndexTs 9) "id" = some 9 ∧
    Alias.aget (Alias.newNodeSrcIndexTs "ID" 9) "ID" = some 9 := by
  refine ⟨?_, ?_, ?_, ?_, ?_⟩ <;> decide

/-! ### Claim C1 -/

theorem desc_iff (n x : Node) : Desc n x ↔ x = n ∨ ∃ c ∈ n.children, Desc c x := by
  constructor
  · intro h
    cases h with
    | refl => exact Or.inl rfl
    | child hc hd => exact Or.inr ⟨_, hc, hd⟩
  · rintro (rfl | ⟨c, hc, hd⟩)
    · exact Desc.refl _
    · exact Desc.child hc hd

theorem mem_getLeaves_iff (x : Node) : ∀ f, x ∈ getLeaves f ↔ ReachF f x := by
  refine forest_ind (by simp [getLeaves_nil, ReachF]) ?_
  intro n rest ihc ihr
  rw [getLeaves_cons]
  constructor
  · intro hx
    rcases List.mem_cons.mp hx with rfl | hx2
    · exact ⟨x, List.mem_cons_self _ _, Desc.refl x⟩
    · rcases List.mem_append.mp hx2 with hcl | hrl
      · rcases ihc.mp hcl with ⟨c, hc, hd⟩
        exact ⟨n, List.mem_cons_self _ _, Desc.child hc hd⟩
      · rcases ihr.mp hrl with ⟨r, hr, hd⟩
        exact ⟨r, List.mem_cons_of_mem _ hr, hd⟩
  · rintro ⟨r, hr, hd⟩
    rcases List.mem_cons.mp hr with rfl | hr2
    · rcases (desc_iff r x).mp hd with rfl | ⟨c, hc, hd2⟩
      · exact List.mem_cons_self _ _
      · exact List.mem_cons_of_mem _ (List.mem_append.mpr (Or.inl (ihc.mpr ⟨c, hc, hd2⟩)))
    · exact List.mem_cons_of_mem _ (List.mem_append.mpr (Or.inr (ihr.mpr ⟨r, hr2, hd⟩)))

theorem length_getLeaves : ∀ f, (getLeaves f).length = sizeF f := by
  refine forest_ind (by rw [getLeaves_nil, sizeF]; rfl) ?_
  intro n rest ihc ihr
  rw [getLeaves_cons, sizeF]
  simp [ihc, ihr]
  omega

theorem count_leafIds : ∀ f, ∀ pId, (leafIds f).count pId = idOccF pId f := by
  refine forest_ind ?_ ?_
  · intro pId
    rw [idOccF]
    simp [leafIds, getLeaves_nil]
  · intro n rest ihc ihr pId
    rw [idOccF]
    simp only [leafIds, getLeaves_cons, List.map_cons, List.map_append,
      List.count_cons, List.count_append]
    have h1 := ihc pId
    have h2 := ihr pId
    simp only [leafIds] at h1 h2
    rw [h1, h2]
    by_cases hz : n.id = pId <;> simp [hz] <;> omega

theorem getItems_reverse (sibs : List Node) (p : Option Node) :
    (getItems sibs p).reverse = sibs.map fun node => Item.mk node p sibs := by
  simp [getItems]

theorem genNodesGo_items :
    ∀ (M : Nat) (cs : List Node) (p : Option Node) (q : List Node) (stack : List Item),
      sizeF cs + stackWeight stack = M →
      genNodesGo ((cs.map fun n => Item.mk n p q) ++ stack) =
        getLeaves cs ++ genNodesGo stack := by
  intro M
  induction M using Nat.strong_induction_on with
  | _ M ih =>
    intro cs p q stack hM
    cases cs with
    | nil => simp [getLeaves_nil]
    | cons n rest =>
      have hw1 : stackWeight (rest.map fun m => Item.mk m p q) = sizeF rest := by
        rw [sizeF_eq_sum rest]
        simp [stackWeight, Function.comp_def]
      have hsz : sizeF (n :: rest) = 1 + sizeF n.children + sizeF rest := by rw [sizeF]
      rw [List.map_cons, List.cons_append, genNodesGo, getItems_reverse]
      have step1 : genNodesGo
          ((n.children.map fun c => Item.mk c (some n) n.children) ++
            ((rest.map fun m => Item.mk m p q) ++ stack)) =
          getLeaves n.children ++ genNodesGo ((rest.map fun m => Item.mk m p q) ++ stack) := by
        refine ih _ ?_ n.children (some n) n.children _ rfl
        rw [stackWeight_append, hw1]
        omega
      have step2 : genNodesGo ((rest.map fun m => Item.mk m p q) ++ stack) =
          getLeaves rest ++ genNodesGo stack := by
        refine ih _ ?_ rest p q stack rfl
        omega
      simp only [List.append_assoc] at step1 ⊢
      rw [step1, step2, getLeaves_cons]
      simp

theorem genNodes_eq_getLeaves (f : List Node) : genNodes f = getLeaves f := by
  rw [genNodes, getItems_reverse]
  have h := genNodesGo_items (sizeF f + stackWeight []) f none f [] rfl
  rw [List.append_nil] at h
  rw [h, genNodesGo]
  simp

/-- C1: the flat view is complete.  Both flatten variants agree; a node is
in the flat view exactly when it is reachable from the forest by `children`
edges; the flat view has exactly one entry per node position of the forest
(none dropped, none duplicated); and each id occurs in the flat view
exactly as often as there are positions carrying it.  All of this holds for
arbitrary nesting depth and branching factor, since `f` is arbitrary. -/
theorem c1_flat_view_complete (f : List Node) :
    genNodes f = getLeaves f ∧
    (∀ x, x ∈ getLeaves f ↔ ReachF f x) ∧
    (getLeaves f).length = sizeF f ∧
    (∀ pId, (leafIds f).count pId = idOccF pId f) :=
  ⟨genNodes_eq_getLeaves f, fun x => mem_getLeaves_iff x f, length_getLeaves f,
    count_leafIds f⟩

/-! ### Claim C9 -/

/-- C9 (invariant I4): in a forest, every id present in the flat view
resolves to a node whose `index` accessor
(`siblings.findIndex(s => this[keyId] === s[keyId])`) is a valid position
of its bound sibling array, and the sibling array holds that very node
there.  The id-uniqueness hypothesis mirrors the claim's scope (with
duplicate ids the data model declares behavior undefined). -/
theorem c9_index_invariant (tree : List Node) (hnd : (leafIds tree).Nodup)
    (pId : Nat) (hmem : pId ∈ leafIds tree) :
    ∃ fr anc, locate pId tree = some (fr :: anc) ∧
      fr.sibs.findIdx (idIs pId) = fr.pos ∧
      fr.pos < fr.sibs.length ∧
      fr.sibs[fr.pos]? = some fr.node ∧
      fr.node.id = pId := by
  cases hres : locate pId tree with
  | none => exact absurd ((locate_none_iff pId tree).mp hres) (by simpa using hmem)
  | some fs =>
    obtain ⟨fr, anc', heq, hid, hpos, hpre, -⟩ := locate_ok pId tree fs hres
    subst heq
    exact ⟨fr, anc', rfl, locate_findIdx pId tree fr anc' hres,
      lt_length_of_getElem? hpos, hpos, hid⟩

/-- Witness for C9 on the section-8 forest with id 6. -/
theorem c9_witness :
    ∃ fr anc, locate 6 exampleForest = some (fr :: anc) ∧
      fr.sibs.findIdx (idIs 6) = fr.pos ∧
      fr.pos < fr.sibs.length ∧
      fr.sibs[fr.pos]? = some fr.node ∧
      fr.node.id = 6 := by
  have hids : leafIds exampleForest = [1, 2, 5, 6, 3, 4, 7, 8, 9] := by
    simp [leafIds, exampleForest, br, lf, getLeaves, Node.children, Node.id]
  refine c9_index_invariant exampleForest ?_ 6 ?_
  · rw [hids]
    decide
  · rw [hids]
    decide

/-! ### Helpers for the move round-trip -/

theorem list_decomp_pair {α : Type} :
    ∀ (l : List α) (i : Nat) (a b : α), l[i]? = some a → l[i + 1]? = some b →
      l = l.take i ++ a :: b :: l.drop (i + 2) := by
  intro l
  induction l with
  | nil => intro i a b h _; simp at h
  | cons x t ih =>
    intro i a b ha hb
    cases i with
    | zero =>
      simp at ha
      subst ha
      cases t with
      | nil => simp at hb
      | cons y u =>
        simp at hb
        subst hb
        simp
    | succ j =>
      simp at ha hb
      have h := ih j a b ha hb
      simp only [List.take_succ_cons, List.drop_succ_cons, List.cons_append]
      exact congrArg (x :: ·) h

theorem set_set_swap {α : Type} :
    ∀ (l : List α) (i : Nat) (a b : α), l[i]? = some a → l[i + 1]? = some b →
      (l.set i b).set (i + 1) a = l.take i ++ b :: a :: l.drop (i + 2) := by
  intro l
  induction l with
  | nil => intro i a b h _; simp at h
  | cons x t ih =>
    intro i a b ha hb
    cases i with
    | zero =>
      simp at ha
      subst ha
      cases t with
      | nil => simp at hb
      | cons y u =>
        simp at hb
        subst hb
        simp
    | succ j =>
      simp at ha hb
      have h := ih j a b ha hb
      simp only [List.set_cons_succ, List.take_succ_cons, List.drop_succ_cons,
        List.cons_append]
      exact congrArg (x :: ·) h

theorem leafIds_of_mem :
    ∀ (l : List Node) (a : Node), a ∈ l →
      a.id ∈ leafIds l ∧ ∀ x ∈ leafIds a.children, x ∈ leafIds l := by
  intro l
  induction l with
  | nil => intro a h; simp at h
  | cons b t ih =>
    intro a h
    rcases List.mem_cons.mp h with rfl | ht
    · constructor
      · simp [leafIds, getLeaves_cons]
      · intro x hx
        simp only [leafIds, getLeaves_cons, List.map_cons, List.map_append,
          List.mem_cons, List.mem_append]
        exact Or.inr (Or.inl (by simpa [leafIds] using hx))
    · obtain ⟨h1, h2⟩ := ih a ht
      constructor
      · simp only [leafIds, getLeaves_cons, List.map_cons, List.map_append,
          List.mem_cons, List.mem_append]
        exact Or.inr (Or.inr (by simpa [leafIds] using h1))
      · intro x hx
        simp only [leafIds, getLeaves_cons, List.map_cons, List.map_append,
          List.mem_cons, List.mem_append]
        exact Or.inr (Or.inr (by simpa [leafIds] using h2 x hx))

theorem avoid_of_not_mem (l : List Node) (pId : Nat) (h : pId ∉ leafIds l) :
    ∀ a ∈ l, a.id ≠ pId ∧ pId ∉ leafIds a.children := by
  intro a ha
  obtain ⟨h1, h2⟩ := leafIds_of_mem l a ha
  exact ⟨fun he => h (he ▸ h1), fun hm => h (h2 pId hm)⟩

theorem locGo_skip (pId : Nat) (anc : List Frame) (sibs : List Node) (n : Node)
    (pending : List Node) (i : Nat)
    (hn : n.id ≠ pId) (hsub : pId ∉ leafIds n.children) :
    locGo pId anc sibs (n :: pending) i = locGo pId anc sibs pending (i + 1) := by
  rw [locGo]
  have hnone : locGo pId (⟨n, sibs, i⟩ :: anc) n.children n.children 0 = none :=
    (locGo_none_iff pId n.children (⟨n, sibs, i⟩ :: anc) n.children 0).mpr hsub
  simp [hn, hnone]

theorem locGo_skip_many (pId : Nat) (anc : List Frame) (sibs : List Node) :
    ∀ (pre suf : List Node) (i : Nat),
      (∀ a ∈ pre, a.id ≠ pId ∧ pId ∉ leafIds a.children) →
      locGo pId anc sibs (pre ++ suf) i = locGo pId anc sibs suf (i + pre.length) := by
  intro pre
  induction pre with
  | nil => intro suf i _; simp
  | cons a t ih =>
    intro suf i hpre
    obtain ⟨ha1, ha2⟩ := hpre a (List.mem_cons_self a t)
    rw [List.cons_append, locGo_skip pId anc sibs a (t ++ suf) i ha1 ha2,
      ih suf (i + 1) fun b hb => hpre b (List.mem_cons_of_mem a hb)]
    have harith : i + 1 + t.length = i + (a :: t).length := by
      simp
      omega
    rw [harith]

theorem rebuild_respine :
    ∀ (anc : List Frame) (X Y : List Node),
      rebuild (respine anc X) Y = rebuild anc Y := by
  intro anc
  induction anc with
  | nil => intro X Y; rfl
  | cons fr anc ih =>
    intro X Y
    rw [respine, rebuild, rebuild]
    simp only [Node.id, Node.hasKids, List.set_set]
    exact ih _ _

/-- Searching the forest obtained by replacing the sibling array at the
bottom of a consistent ancestor chain: when the searched id lives inside
the replacement and ids are unique, the search runs straight down the
spine, continuing inside the replacement under the respined ancestors. -/
theorem locGo_spine (pId : Nat) :
    ∀ (anc : List Frame) (cur : List Node),
      (∀ fr ∈ anc, fr.pos < fr.sibs.length) →
      (leafIds (rebuild anc cur)).Nodup →
      pId ∈ leafIds cur →
      locate pId (rebuild anc cur) = locGo pId (respine anc cur) cur cur 0 := by
  intro anc
  induction anc with
  | nil => intro cur _ _ _; rfl
  | cons fr anc ih =>
    intro cur hposok hnd hmem
    have hpos : fr.pos < fr.sibs.length := hposok fr (List.mem_cons_self fr anc)
    have hrw : rebuild (fr :: anc) cur =
        rebuild anc (fr.sibs.set fr.pos (Node.mk fr.node.id fr.node.hasKids cur)) := by
      rw [rebuild]
    have hsplit : fr.sibs.set fr.pos (Node.mk fr.node.id fr.node.hasKids cur) =
        fr.sibs.take fr.pos ++ Node.mk fr.node.id fr.node.hasKids cur ::
          fr.sibs.drop (fr.pos + 1) :=
      set_eq_take_cons_drop fr.sibs fr.pos _ hpos
    have hkid : (Node.mk fr.node.id fr.node.hasKids cur).children = cur := rfl
    have hidval : (Node.mk fr.node.id fr.node.hasKids cur).id = fr.node.id := rfl
    have hmem2 : pId ∈ leafIds (fr.sibs.set fr.pos (Node.mk fr.node.id fr.node.hasKids cur)) := by
      rw [hsplit, leafIds, getLeaves_append, getLeaves_cons]
      simp only [List.map_append, List.map_cons]
      refine List.mem_append.mpr (Or.inr (List.mem_cons_of_mem _
        (List.mem_append.mpr (Or.inl ?_))))
      rw [hkid]
      exact hmem
    have hstep := ih (fr.sibs.set fr.pos (Node.mk fr.node.id fr.node.hasKids cur))
      (fun g hg => hposok g (List.mem_cons_of_mem fr hg)) (by rw [← hrw]; exact hnd) hmem2
    rw [hrw, hstep]
    -- Nodup of the level being scanned, to justify skipping the prefix
    obtain ⟨A, B, hAB⟩ := leafIds_rebuild anc fun g hg => hposok g (List.mem_cons_of_mem fr hg)
    have hndmid : (leafIds (fr.sibs.set fr.pos (Node.mk fr.node.id fr.node.hasKids cur))).Nodup := by
      have hinf : leafIds (fr.sibs.set fr.pos (Node.mk fr.node.id fr.node.hasKids cur)) <:+:
          leafIds (rebuild anc (fr.sibs.set fr.pos (Node.mk fr.node.id fr.node.hasKids cur))) :=
        ⟨A, B, (hAB _).symm⟩
      exact List.Nodup.sublist hinf.sublist (by rw [← hrw]; exact hnd)
    rw [hsplit] at hndmid
    have hndmid2 : (leafIds (fr.sibs.take fr.pos) ++
        (fr.node.id :: (leafIds cur ++ leafIds (fr.sibs.drop (fr.pos + 1))))).Nodup := by
      simpa [leafIds, getLeaves_append, getLeaves_cons, Node.children, Node.id]
        using hndmid
    have hprefix : ∀ a ∈ fr.sibs.take fr.pos, a.id ≠ pId ∧ pId ∉ leafIds a.children := by
      refine avoid_of_not_mem _ pId ?_
      intro hmemA
      rcases List.nodup_append.mp hndmid2 with ⟨-, -, hdisj⟩
      exact hdisj hmemA (by
        simp only [List.mem_cons, List.mem_append]
        exact Or.inr (Or.inl hmem))
    have hheadne : fr.node.id ≠ pId := by
      have hnodup2 := (List.nodup_append.mp hndmid2).2.1
      intro he
      exact (List.nodup_cons.mp hnodup2).1 (he ▸ List.mem_append.mpr (Or.inl hmem))
    -- scan: skip the prefix, refuse the spine node's own id, descend
    rw [hsplit, locGo_skip_many pId _ _ (fr.sibs.take fr.pos) _ 0 hprefix]
    have hlen : (fr.sibs.take fr.pos).length = fr.pos := by
      simp [List.length_take]
      omega
    rw [locGo]
    simp only [hidval, hkid, hlen, Nat.zero_add]
    rw [if_neg hheadne]
    have hrs : (⟨Node.mk fr.node.id fr.node.hasKids cur,
        fr.sibs.take fr.pos ++ Node.mk fr.node.id fr.node.hasKids cur ::
          fr.sibs.drop (fr.pos + 1), fr.pos⟩ : Frame) :: respine anc
          (fr.sibs.take fr.pos ++ Node.mk fr.node.id fr.node.hasKids cur ::
            fr.sibs.drop (fr.pos + 1)) =
        respine (fr :: anc) cur := by
      rw [respine, hsplit]
    rw [hrs]
    cases hres : locGo pId (respine (fr :: anc) cur) cur cur 0 with
    | none =>
      exact absurd ((locGo_none_iff pId cur (respine (fr :: anc) cur) cur 0).mp hres)
        (by simpa using hmem)
    | some fs => rfl

theorem mem_of_getElem?_eq {α : Type} :
    ∀ (l : List α) (n : Nat) (a : α), l[n]? = some a → a ∈ l := by
  intro l
  induction l with
  | nil => intro n a h; simp at h
  | cons x t ih =>
    intro n a h
    cases n with
    | zero => simp at h; subst h; exact List.mem_cons_self _ _
    | succ m => simp at h; exact List.mem_cons_of_mem _ (ih m a h)

theorem getElem?_append_cons {α : Type} (T suf : List α) (x : α) :
    (T ++ x :: suf)[T.length]? = some x ∧
    ∀ k, (T ++ x :: suf)[T.length + 1 + k]? = suf[k]? := by
  constructor
  · rw [List.getElem?_append]
    simp
  · intro k
    rw [List.getElem?_append]
    have : ¬ T.length + 1 + k < T.length := by omega
    rw [if_neg this]
    have h2 : T.length + 1 + k - T.length = k + 1 := by omega
    rw [h2]
    simp

theorem getElem?_append_lt {α : Type} (T suf : List α) (m : Nat) (hm : m < T.length) :
    (T ++ suf)[m]? = T[m]? := by
  rw [List.getElem?_append, if_pos hm]

theorem findIdx_append_cons (pId : Nat) (T suf : List Node) (x : Node)
    (hx : x.id = pId) (havoid : ∀ a ∈ T, a.id ≠ pId) :
    (T ++ x :: suf).findIdx (idIs pId) = T.length := by
  refine findIdx_eq_of_firstHit (idIs pId) (T ++ x :: suf) T.length x
    (getElem?_append_cons T suf x).1 (beq_iff_eq.mpr hx) ?_
  intro m hm y hy
  rw [getElem?_append_lt T _ m hm] at hy
  exact beq_eq_false_iff_ne.mpr (havoid y (mem_of_getElem?_eq T m y hy))

/-- Relocation after an edit: searching the rebuilt forest whose bottom
sibling array is `T ++ x :: suf`, with `x` carrying the searched id and the
prefix `T` free of it, finds `x` there, bound to the respined ancestors. -/
theorem locate_rebuild_at (pId : Nat) (anc : List Frame) (T suf : List Node) (x : Node)
    (hposok : ∀ g ∈ anc, g.pos < g.sibs.length)
    (hnd : (leafIds (rebuild anc (T ++ x :: suf))).Nodup)
    (hx : x.id = pId)
    (havoid : ∀ a ∈ T, a.id ≠ pId ∧ pId ∉ leafIds a.children) :
    locate pId (rebuild anc (T ++ x :: suf)) =
      some (⟨x, T ++ x :: suf, T.length⟩ :: respine anc (T ++ x :: suf)) := by
  have hmem : pId ∈ leafIds (T ++ x :: suf) := by
    rw [leafIds, getLeaves_append, getLeaves_cons]
    simp only [List.map_append, List.map_cons]
    exact List.mem_append.mpr (Or.inr (List.mem_cons.mpr (Or.inl hx.symm)))
  rw [locGo_spine pId anc _ hposok hnd hmem,
    locGo_skip_many pId _ _ T (x :: suf) 0 havoid, locGo, if_pos hx]
  simp

/-- Moving a non-first sibling up and then down restores the forest. -/
theorem up_down_inverse (tree : List Node) (pId : Nat) (fr : Frame) (anc : List Frame)
    (hnd : (leafIds tree).Nodup)
    (hloc : locate pId tree = some (fr :: anc))
    (hlow : 0 < fr.pos) :
    down pId (up pId tree) = tree := by
  have hidx := locate_findIdx pId tree fr anc hloc
  obtain ⟨fr', anc', heq, hid, hpos, hpre, hanc⟩ := locate_ok pId tree _ hloc
  obtain ⟨h1, h2⟩ := List.cons.inj heq
  subst h1
  rw [← h2] at hanc
  have hplen : fr.pos < fr.sibs.length := lt_length_of_getElem? hpos
  have hposok := AncOk_posOk tree anc fr.sibs hanc
  have hself : rebuild anc fr.sibs = tree := rebuild_self tree anc fr.sibs hanc
  obtain ⟨pv, hpv⟩ : ∃ pv, fr.sibs[fr.pos - 1]? = some pv := by
    cases h : fr.sibs[fr.pos - 1]? with
    | some pv => exact ⟨pv, rfl⟩
    | none => rw [List.getElem?_eq_none_iff] at h; omega
  obtain ⟨i0, hi0⟩ : ∃ i0, fr.pos = i0 + 1 := ⟨fr.pos - 1, by omega⟩
  have hpv0 : fr.sibs[i0]? = some pv := by
    rw [← hpv]
    congr 1
    omega
  have hnode1 : fr.sibs[i0 + 1]? = some fr.node := by
    rw [← hpos]
    congr 1
    omega
  have hdecomp : fr.sibs =
      fr.sibs.take i0 ++ pv :: fr.node :: fr.sibs.drop (i0 + 2) :=
    list_decomp_pair fr.sibs i0 pv fr.node hpv0 hnode1
  have hswap : (fr.sibs.set (fr.pos - 1) fr.node).set fr.pos pv =
      fr.sibs.take i0 ++ fr.node :: pv :: fr.sibs.drop (i0 + 2) := by
    have hss := set_set_swap fr.sibs i0 pv fr.node hpv0 hnode1
    rw [hi0]
    simpa using hss
  have hup : up pId tree =
      rebuild anc (fr.sibs.take i0 ++ fr.node :: pv :: fr.sibs.drop (i0 + 2)) := by
    rw [up, hloc]
    simp only [hidx]
    rw [if_neg (by omega)]
    simp only [hpos, hpv]
    rw [hswap]
  have hndsibs : (leafIds fr.sibs).Nodup := by
    obtain ⟨A, B, hAB⟩ := leafIds_rebuild anc hposok
    have htr : leafIds tree = A ++ leafIds fr.sibs ++ B := by
      rw [← hself]
      exact hAB _
    exact List.Nodup.sublist (List.IsInfix.sublist ⟨A, B, htr.symm⟩) hnd
  have hids : leafIds fr.sibs =
      leafIds (fr.sibs.take i0) ++ ((pv.id :: leafIds pv.children) ++
        ((fr.node.id :: leafIds fr.node.children) ++ leafIds (fr.sibs.drop (i0 + 2)))) := by
    conv_lhs => rw [hdecomp]
    simp [leafIds, getLeaves_append, getLeaves_cons]
  have hnd2 : (leafIds (fr.sibs.take i0) ++ ((pv.id :: leafIds pv.children) ++
      ((fr.node.id :: leafIds fr.node.children) ++
        leafIds (fr.sibs.drop (i0 + 2))))).Nodup := hids ▸ hndsibs
  have havoidT : ∀ a ∈ fr.sibs.take i0, a.id ≠ pId ∧ pId ∉ leafIds a.children := by
    refine avoid_of_not_mem _ pId ?_
    intro hmemT
    rcases List.nodup_append.mp hnd2 with ⟨-, -, hdisj⟩
    refine hdisj hmemT (List.mem_append.mpr (Or.inr (List.mem_append.mpr
      (Or.inl ?_))))
    rw [← hid]
    exact List.mem_cons_self _ _
  have hmid : leafIds (fr.sibs.take i0 ++ fr.node :: pv :: fr.sibs.drop (i0 + 2)) =
      leafIds (fr.sibs.take i0) ++ ((fr.node.id :: leafIds fr.node.children) ++
        ((pv.id :: leafIds pv.children) ++ leafIds (fr.sibs.drop (i0 + 2)))) := by
    simp [leafIds, getLeaves_append, getLeaves_cons]
  have hperm : (leafIds (fr.sibs.take i0 ++ fr.node :: pv ::
      fr.sibs.drop (i0 + 2))).Perm (leafIds fr.sibs) := by
    rw [hmid, hids]
    refine List.Perm.append_left _ ?_
    have e1 : (fr.node.id :: leafIds fr.node.children) ++
        ((pv.id :: leafIds pv.children) ++ leafIds (fr.sibs.drop (i0 + 2))) =
        ((fr.node.id :: leafIds fr.node.children) ++ (pv.id :: leafIds pv.children)) ++
          leafIds (fr.sibs.drop (i0 + 2)) := by
      rw [List.append_assoc]
    have e2 : (pv.id :: leafIds pv.children) ++
        ((fr.node.id :: leafIds fr.node.children) ++ leafIds (fr.sibs.drop (i0 + 2))) =
        ((pv.id :: leafIds pv.children) ++ (fr.node.id :: leafIds fr.node.children)) ++
          leafIds (fr.sibs.drop (i0 + 2)) := by
      rw [List.append_assoc]
    rw [e1, e2]
    exact List.Perm.append_right _ List.perm_append_comm
  have hswnd : (leafIds (rebuild anc (fr.sibs.take i0 ++ fr.node :: pv ::
      fr.sibs.drop (i0 + 2)))).Nodup := by
    obtain ⟨A, B, hAB⟩ := leafIds_rebuild anc hposok
    have htr : leafIds tree = A ++ leafIds fr.sibs ++ B := by
      rw [← hself]
      exact hAB _
    rw [hAB _]
    exact ((hperm.append_left A).append_right B).nodup_iff.mpr (htr ▸ hnd)
  have hrel := locate_rebuild_at pId anc (fr.sibs.take i0)
    (pv :: fr.sibs.drop (i0 + 2)) fr.node hposok hswnd hid havoidT
  have hTlen : (fr.sibs.take i0).length = i0 := by
    simp [List.length_take]
    omega
  have hfind2 : (fr.sibs.take i0 ++ fr.node :: pv ::
      fr.sibs.drop (i0 + 2)).findIdx (idIs pId) = i0 := by
    rw [findIdx_append_cons pId _ _ fr.node hid fun a ha => (havoidT a ha).1]
    exact hTlen
  have hg0 : (fr.sibs.take i0 ++ fr.node :: pv :: fr.sibs.drop (i0 + 2))[i0]? =
      some fr.node := by
    have h := (getElem?_append_cons (fr.sibs.take i0)
      (pv :: fr.sibs.drop (i0 + 2)) fr.node).1
    rw [hTlen] at h
    exact h
  have hg1 : (fr.sibs.take i0 ++ fr.node :: pv :: fr.sibs.drop (i0 + 2))[i0 + 1]? =
      some pv := by
    have h := (getElem?_append_cons (fr.sibs.take i0)
      (pv :: fr.sibs.drop (i0 + 2)) fr.node).2 0
    rw [hTlen] at h
    simpa using h
  have hlen2 : (fr.sibs.take i0 ++ fr.node :: pv ::
      fr.sibs.drop (i0 + 2)).length = i0 + (2 + (fr.sibs.drop (i0 + 2)).length) := by
    simp [hTlen]
    omega
  have hback : ((fr.sibs.take i0 ++ fr.node :: pv ::
      fr.sibs.drop (i0 + 2)).set i0 pv).set (i0 + 1) fr.node = fr.sibs := by
    rw [set_set_swap _ i0 fr.node pv hg0 hg1]
    have ht : (fr.sibs.take i0 ++ fr.node :: pv :: fr.sibs.drop (i0 + 2)).take i0 =
        fr.sibs.take i0 := by
      have h := List.take_left (fr.sibs.take i0) (fr.node :: pv :: fr.sibs.drop (i0 + 2))
      rw [hTlen] at h
      exact h
    have hd : (fr.sibs.take i0 ++ fr.node :: pv :: fr.sibs.drop (i0 + 2)).drop (i0 + 2) =
        fr.sibs.drop (i0 + 2) := by
      have h := @List.drop_append _ (fr.sibs.take i0)
        (fr.node :: pv :: fr.sibs.drop (i0 + 2)) 2
      rw [hTlen] at h
      simpa using h
    rw [ht, hd, ← hdecomp]
  rw [hup, down, hrel]
  simp only [hfind2]
  rw [if_pos (by rw [hlen2]; omega)]
  simp only [hg0, hg1]
  rw [hback, rebuild_respine, hself]

/-- Moving a non-last sibling down and then up restores the forest. -/
theorem down_up_inverse (tree : List Node) (pId : Nat) (fr : Frame) (anc : List Frame)
    (hnd : (leafIds tree).Nodup)
    (hloc : locate pId tree = some (fr :: anc))
    (hhigh : fr.pos < fr.sibs.length - 1) :
    up pId (down pId tree) = tree := by
  have hidx := locate_findIdx pId tree fr anc hloc
  obtain ⟨fr', anc', heq, hid, hpos, hpre, hanc⟩ := locate_ok pId tree _ hloc
  obtain ⟨h1, h2⟩ := List.cons.inj heq
  subst h1
  rw [← h2] at hanc
  have hplen : fr.pos < fr.sibs.length := lt_length_of_getElem? hpos
  have hposok := AncOk_posOk tree anc fr.sibs hanc
  have hself : rebuild anc fr.sibs = tree := rebuild_self tree anc fr.sibs hanc
  obtain ⟨nx, hnx⟩ : ∃ nx, fr.sibs[fr.pos + 1]? = some nx := by
    cases h : fr.sibs[fr.pos + 1]? with
    | some nx => exact ⟨nx, rfl⟩
    | none => rw [List.getElem?_eq_none_iff] at h; omega
  have hdecomp : fr.sibs =
      fr.sibs.take fr.pos ++ fr.node :: nx :: fr.sibs.drop (fr.pos + 2) :=
    list_decomp_pair fr.sibs fr.pos fr.node nx hpos hnx
  have hswap : (fr.sibs.set fr.pos nx).set (fr.pos + 1) fr.node =
      fr.sibs.take fr.pos ++ nx :: fr.node :: fr.sibs.drop (fr.pos + 2) :=
    set_set_swap fr.sibs fr.pos fr.node nx hpos hnx
  have hdown : down pId tree =
      rebuild anc (fr.sibs.take fr.pos ++ nx :: fr.node :: fr.sibs.drop (fr.pos + 2)) := by
    rw [down, hloc]
    simp only [hidx]
    rw [if_pos (by omega)]
    simp only [hpos, hnx]
    rw [hswap]
  have hndsibs : (leafIds fr.sibs).Nodup := by
    obtain ⟨A, B, hAB⟩ := leafIds_rebuild anc hposok
    have htr : leafIds tree = A ++ leafIds fr.sibs ++ B := by
      rw [← hself]
      exact hAB _
    exact List.Nodup.sublist (List.IsInfix.sublist ⟨A, B, htr.symm⟩) hnd
  have hids : leafIds fr.sibs =
      leafIds (fr.sibs.take fr.pos) ++ ((fr.node.id :: leafIds fr.node.children) ++
        ((nx.id :: leafIds nx.children) ++ leafIds (fr.sibs.drop (fr.pos + 2)))) := by
    conv_lhs => rw [hdecomp]
    simp [leafIds, getLeaves_append, getLeaves_cons]
  have hnd2 : (leafIds (fr.sibs.take fr.pos) ++ ((fr.node.id :: leafIds fr.node.children) ++
      ((nx.id :: leafIds nx.children) ++
        leafIds (fr.sibs.drop (fr.pos + 2))))).Nodup := hids ▸ hndsibs
  have hTnot : pId ∉ leafIds (fr.sibs.take fr.pos) := by
    intro hmemT
    rcases List.nodup_append.mp hnd2 with ⟨-, -, hdisj⟩
    refine hdisj hmemT (List.mem_append.mpr (Or.inl ?_))
    rw [← hid]
    exact List.mem_cons_self _ _
  have hnxnot : pId ∉ nx.id :: leafIds nx.children := by
    intro hmemN
    have hcons := (List.nodup_append.mp hnd2).2.1
    have hni : fr.node.id ∉ leafIds fr.node.children ++
        ((nx.id :: leafIds nx.children) ++ leafIds (fr.sibs.drop (fr.pos + 2))) :=
      (List.nodup_cons.mp (by simpa using hcons)).1
    refine hni (List.mem_append.mpr (Or.inr (List.mem_append.mpr (Or.inl ?_))))
    rw [hid]
    exact hmemN
  have havoid2 : ∀ a ∈ fr.sibs.take fr.pos ++ [nx],
      a.id ≠ pId ∧ pId ∉ leafIds a.children := by
    refine avoid_of_not_mem _ pId ?_
    intro hmem
    rw [leafIds, getLeaves_append, getLeaves_cons, getLeaves_nil] at hmem
    simp only [List.map_append, List.map_cons, List.mem_append, List.mem_cons] at hmem
    rcases hmem with hin | hin | hin | hin
    · exact hTnot hin
    · exact hnxnot (by rw [hin]; exact List.mem_cons_self _ _)
    · exact hnxnot (List.mem_cons_of_mem _ hin)
    · simp at hin
  have hmid : leafIds (fr.sibs.take fr.pos ++ nx :: fr.node ::
      fr.sibs.drop (fr.pos + 2)) =
      leafIds (fr.sibs.take fr.pos) ++ ((nx.id :: leafIds nx.children) ++
        ((fr.node.id :: leafIds fr.node.children) ++
          leafIds (fr.sibs.drop (fr.pos + 2)))) := by
    simp [leafIds, getLeaves_append, getLeaves_cons]
  have hperm : (leafIds (fr.sibs.take fr.pos ++ nx :: fr.node ::
      fr.sibs.drop (fr.pos + 2))).Perm (leafIds fr.sibs) := by
    rw [hmid, hids]
    refine List.Perm.append_left _ ?_
    have e1 : (nx.id :: leafIds nx.children) ++
        ((fr.node.id :: leafIds fr.node.children) ++
          leafIds (fr.sibs.drop (fr.pos + 2))) =
        ((nx.id :: leafIds nx.children) ++ (fr.node.id :: leafIds fr.node.children)) ++
          leafIds (fr.sibs.drop (fr.pos + 2)) := by
      rw [List.append_assoc]
    have e2 : (fr.node.id :: leafIds fr.node.children) ++
        ((nx.id :: leafIds nx.children) ++ leafIds (fr.sibs.drop (fr.pos + 2))) =
        ((fr.node.id :: leafIds fr.node.children) ++ (nx.id :: leafIds nx.children)) ++
          leafIds (fr.sibs.drop (fr.pos + 2)) := by
      rw [List.append_assoc]
    rw [e1, e2]
    exact List.Perm.append_right _ List.perm_append_comm
  have hswnd : (leafIds (rebuild anc (fr.sibs.take fr.pos ++ nx :: fr.node ::
      fr.sibs.drop (fr.pos + 2)))).Nodup := by
    obtain ⟨A, B, hAB⟩ := leafIds_rebuild anc hposok
    have htr : leafIds tree = A ++ leafIds fr.sibs ++ B := by
      rw [← hself]
      exact hAB _
    rw [hAB _]
    exact ((hperm.append_left A).append_right B).nodup_iff.mpr (htr ▸ hnd)
  have hform : (fr.sibs.take fr.pos ++ [nx]) ++ fr.node :: fr.sibs.drop (fr.pos + 2) =
      fr.sibs.take fr.pos ++ nx :: fr.node :: fr.sibs.drop (fr.pos + 2) := by
    simp
  have hswnd2 : (leafIds (rebuild anc ((fr.sibs.take fr.pos ++ [nx]) ++
      fr.node :: fr.sibs.drop (fr.pos + 2)))).Nodup := by
    rw [hform]
    exact hswnd
  have hrel0 := locate_rebuild_at pId anc (fr.sibs.take fr.pos ++ [nx])
    (fr.sibs.drop (fr.pos + 2)) fr.node hposok hswnd2 hid havoid2
  have hTlen : (fr.sibs.take fr.pos).length = fr.pos := by
    simp [List.length_take]
    omega
  have hT2len : (fr.sibs.take fr.pos ++ [nx]).length = fr.pos + 1 := by
    simp [hTlen]
  have hrel : locate pId (rebuild anc (fr.sibs.take fr.pos ++ nx :: fr.node ::
      fr.sibs.drop (fr.pos + 2))) =
      some (⟨fr.node, fr.sibs.take fr.pos ++ nx :: fr.node ::
        fr.sibs.drop (fr.pos + 2), fr.pos + 1⟩ ::
        respine anc (fr.sibs.take fr.pos ++ nx :: fr.node ::
          fr.sibs.drop (fr.pos + 2))) := by
    rw [← hform, hrel0, hT2len]
  have hfind3 : (fr.sibs.take fr.pos ++ nx :: fr.node ::
      fr.sibs.drop (fr.pos + 2)).findIdx (idIs pId) = fr.pos + 1 := by
    have h := findIdx_append_cons pId (fr.sibs.take fr.pos ++ [nx])
      (fr.sibs.drop (fr.pos + 2)) fr.node hid fun a ha => (havoid2 a ha).1
    rw [hform, hT2len] at h
    exact h
  have hg1 : (fr.sibs.take fr.pos ++ nx :: fr.node ::
      fr.sibs.drop (fr.pos + 2))[fr.pos + 1]? = some fr.node := by
    have h := (getElem?_append_cons (fr.sibs.take fr.pos ++ [nx])
      (fr.sibs.drop (fr.pos + 2)) fr.node).1
    rw [hform, hT2len] at h
    exact h
  have hg0 : (fr.sibs.take fr.pos ++ nx :: fr.node ::
      fr.sibs.drop (fr.pos + 2))[fr.pos]? = some nx := by
    have h := (getElem?_append_cons (fr.sibs.take fr.pos)
      (fr.node :: fr.sibs.drop (fr.pos + 2)) nx).1
    rw [hTlen] at h
    exact h
  have hback : (((fr.sibs.take fr.pos ++ nx :: fr.node ::
      fr.sibs.drop (fr.pos + 2)).set fr.pos fr.node).set (fr.pos + 1) nx) = fr.sibs := by
    rw [set_set_swap _ fr.pos nx fr.node hg0 hg1]
    have ht : (fr.sibs.take fr.pos ++ nx :: fr.node ::
        fr.sibs.drop (fr.pos + 2)).take fr.pos = fr.sibs.take fr.pos := by
      have h := List.take_left (fr.sibs.take fr.pos)
        (nx :: fr.node :: fr.sibs.drop (fr.pos + 2))
      rw [hTlen] at h
      exact h
    have hd : (fr.sibs.take fr.pos ++ nx :: fr.node ::
        fr.sibs.drop (fr.pos + 2)).drop (fr.pos + 2) = fr.sibs.drop (fr.pos + 2) := by
      have h := @List.drop_append _ (fr.sibs.take fr.pos)
        (nx :: fr.node :: fr.sibs.drop (fr.pos + 2)) 2
      rw [hTlen] at h
      simpa using h
    rw [ht, hd, ← hdecomp]
  rw [hdown, up, hrel]
  simp only [hfind3]
  rw [if_neg (by omega)]
  have harith : fr.pos + 1 - 1 = fr.pos := by omega
  simp only [harith, hg0, hg1]
  rw [hback, rebuild_respine, hself]

/-! ### Claim C8 -/

/-- C8: on a forest with unique ids, for a target at neither boundary of
its sibling array, `up` followed by `down` (and `down` followed by `up`)
restores the forest — in particular the original order of the target's
sibling array. -/
theorem c8_up_down_restore (tree : List Node) (pId : Nat) (fr : Frame) (anc : List Frame)
    (hnd : (leafIds tree).Nodup)
    (hloc : locate pId tree = some (fr :: anc))
    (hlow : 0 < fr.pos) (hhigh : fr.pos < fr.sibs.length - 1) :
    down pId (up pId tree) = tree ∧ up pId (down pId tree) = tree :=
  ⟨up_down_inverse tree pId fr anc hnd hloc hlow,
    down_up_inverse tree pId fr anc hnd hloc hhigh⟩

/-- Witness for C8 on `[{id:1,children:[{id:2},{id:3},{id:4}]}]` with the
middle sibling 3. -/
theorem c8_witness :
    down 3 (up 3 [br 1 [lf 2, lf 3, lf 4]]) = [br 1 [lf 2, lf 3, lf 4]] ∧
    up 3 (down 3 [br 1 [lf 2, lf 3, lf 4]]) = [br 1 [lf 2, lf 3, lf 4]] := by
  have hids : leafIds [br 1 [lf 2, lf 3, lf 4]] = [1, 2, 3, 4] := by
    simp [leafIds, getLeaves, br, lf, Node.id, Node.children]
  have hnd : (leafIds [br 1 [lf 2, lf 3, lf 4]]).Nodup := by
    rw [hids]
    decide
  have hloc : locate 3 [br 1 [lf 2, lf 3, lf 4]] =
      some [⟨lf 3, [lf 2, lf 3, lf 4], 1⟩,
        ⟨br 1 [lf 2, lf 3, lf 4], [br 1 [lf 2, lf 3, lf 4]], 0⟩] := by
    simp [locate, locGo, br, lf, Node.id, Node.children]
  exact c8_up_down_restore [br 1 [lf 2, lf 3, lf 4]] 3
    ⟨lf 3, [lf 2, lf 3, lf 4], 1⟩
    [⟨br 1 [lf 2, lf 3, lf 4], [br 1 [lf 2, lf 3, lf 4]], 0⟩]
    hnd hloc (by decide) (by decide)

end FlatJsonTree
